import Mathlib

/-!
# crc32combine: a shallow embedding of `crc32.go` and its properties

Machine model.  A Go `uint32` is a natural number below `2 ^ 32`; the only
`uint32` multiplication of the source (`m[i] * (vec & 1)`) is reduced modulo
`2 ^ 32`.  A `gf2Mat` (`[32]uint32`) and a `crc32.Table` (`[256]uint32`) are
lists of naturals; every indexing of the source is an explicit, checked lookup
that yields `none` where Go would panic with an index out of range.  A Go `int`
is an integer.  Loops are recursive functions on a fuel argument; the fuel
handed to each loop is the loop's own decreasing quantity (`vec` for `mul`,
`length` for `Combine`), which is never exhausted (`mulLoop_spec`,
`combineLoop_eq`).
-/

namespace Crc32Combine

/-- The type `gf2Mat` of the source: `[32]uint32`, as the list of its rows. -/
abbrev gf2Mat := List Nat

/-- The type `crc32.Table` of Go's `hash/crc32`: `[256]uint32`. -/
abbrev Table := List Nat

/-- A well-formed `gf2Mat`: 32 rows, each a `uint32`. -/
def MatWF (m : gf2Mat) : Prop := m.length = 32 ∧ ∀ r ∈ m, r < 2 ^ 32

instance (m : gf2Mat) : Decidable (MatWF m) := by unfold MatWF; infer_instance

/-- A well-formed `crc32.Table`: 256 entries, each a `uint32`. -/
def TableWF (t : Table) : Prop := t.length = 256 ∧ ∀ x ∈ t, x < 2 ^ 32

instance (t : Table) : Decidable (TableWF t) := by unfold TableWF; infer_instance

/-- The constant `initOdd` of the source: rows 0..3 are zero, row `j` is `1 << (j-4)`. -/
def initOdd : gf2Mat :=
  [0, 0, 0, 0, 1 <<< 0, 1 <<< 1, 1 <<< 2, 1 <<< 3,
   1 <<< 4, 1 <<< 5, 1 <<< 6, 1 <<< 7, 1 <<< 8, 1 <<< 9, 1 <<< 10, 1 <<< 11,
   1 <<< 12, 1 <<< 13, 1 <<< 14, 1 <<< 15, 1 <<< 16, 1 <<< 17, 1 <<< 18, 1 <<< 19,
   1 <<< 20, 1 <<< 21, 1 <<< 22, 1 <<< 23, 1 <<< 24, 1 <<< 25, 1 <<< 26, 1 <<< 27]

/-- The constant `initEven` of the source: rows 0..1 are zero, row `j` is `1 << (j-2)`. -/
def initEven : gf2Mat :=
  [0, 0, 1 <<< 0, 1 <<< 1, 1 <<< 2, 1 <<< 3, 1 <<< 4, 1 <<< 5,
   1 <<< 6, 1 <<< 7, 1 <<< 8, 1 <<< 9, 1 <<< 10, 1 <<< 11, 1 <<< 12, 1 <<< 13,
   1 <<< 14, 1 <<< 15, 1 <<< 16, 1 <<< 17, 1 <<< 18, 1 <<< 19, 1 <<< 20, 1 <<< 21,
   1 <<< 22, 1 <<< 23, 1 <<< 24, 1 <<< 25, 1 <<< 26, 1 <<< 27, 1 <<< 28, 1 <<< 29]

/-- The loop of `gf2Mat.mul`:
`for i := 0; vec != 0; i, vec = i+4, vec>>4 { sum ^= m[i]*(vec&1) ^ ... }`.
The state is `(i, vec, sum)`.  A row lookup outside the matrix is `none` (Go
panics); running out of fuel is `none` as well. -/
def mulLoop : Nat → gf2Mat → Nat → Nat → Nat → Option Nat
  | 0, _, _, vec, sum => if vec = 0 then some sum else none
  | fuel + 1, m, i, vec, sum =>
    if vec = 0 then some sum
    else
      match m[i]?, m[i + 1]?, m[i + 2]?, m[i + 3]? with
      | some r0, some r1, some r2, some r3 =>
        mulLoop fuel m (i + 4) (vec >>> 4)
          (sum ^^^ ((r0 * (vec &&& 1)) % 2 ^ 32 ^^^
                    (r1 * ((vec >>> 1) &&& 1)) % 2 ^ 32 ^^^
                    (r2 * ((vec >>> 2) &&& 1)) % 2 ^ 32 ^^^
                    (r3 * ((vec >>> 3) &&& 1)) % 2 ^ 32))
      | _, _, _, _ => none

/-- The method `func (m *gf2Mat) mul(vec uint32) (sum uint32)`.  The fuel is
`vec` itself: every iteration replaces `vec` by `vec >> 4`, which is smaller. -/
def mul (m : gf2Mat) (vec : Nat) : Option Nat := mulLoop vec m 0 vec 0

/-- The loop of `gf2Mat.sqrt`: `for n, val := range lhs { m[n] = lhs.mul(val) }`,
over the rows `val` of `lhs` not yet visited, `n` the index of the next one.
The destination `m` is a buffer of its own (the two matrices of `Combine` are
never the same one); a store outside of it is `none`. -/
def sqrtLoop (lhs : gf2Mat) : List Nat → Nat → gf2Mat → Option gf2Mat
  | [], _, m => some m
  | val :: rest, n, m =>
    match mul lhs val with
    | some r => if n < m.length then sqrtLoop lhs rest (n + 1) (m.set n r) else none
    | none => none

/-- The method `func (m *gf2Mat) sqrt(lhs *gf2Mat)`: the result is the new
content of the destination `m`. -/
def sqrt (m lhs : gf2Mat) : Option gf2Mat := sqrtLoop lhs lhs 0 m

/-- The loop of `Combine`:
`for pOdd, pEven := &odd, &even; length > 0; pOdd, pEven = pEven, pOdd {
   if pEven.sqrt(pOdd); length&1 != 0 { crc1 = pEven.mul(crc1) }
   length >>= 1 }`.
The state is the content of the two buffers, `length` (positive inside the
loop, hence a natural number) and `crc1`; the result is the final `crc1`. -/
def combineLoop : Nat → gf2Mat → gf2Mat → Nat → Nat → Option Nat
  | 0, _, _, length, crc1 => if length = 0 then some crc1 else none
  | fuel + 1, pOdd, pEven, length, crc1 =>
    if length = 0 then some crc1
    else
      match sqrt pEven pOdd with
      | none => none
      | some pEven' =>
        match (if length &&& 1 ≠ 0 then mul pEven' crc1 else some crc1) with
        | none => none
        | some crc1' => combineLoop fuel pEven' pOdd (length >>> 1) crc1'

/-- The seeding of `odd`:
`odd[0], odd[1], odd[2], odd[3] = poly[1<<4], poly[1<<5], poly[1<<6], poly[1<<7]`. -/
def seedOdd (poly : Table) : Option gf2Mat :=
  match poly[1 <<< 4]?, poly[1 <<< 5]?, poly[1 <<< 6]?, poly[1 <<< 7]? with
  | some a, some b, some c, some d => some ((((initOdd.set 0 a).set 1 b).set 2 c).set 3 d)
  | _, _, _, _ => none

/-- The seeding of `even`: `even[0], even[1] = poly[1<<6], poly[1<<7]`. -/
def seedEven (poly : Table) : Option gf2Mat :=
  match poly[1 <<< 6]?, poly[1 <<< 7]? with
  | some c, some d => some ((initEven.set 0 c).set 1 d)
  | _, _ => none

/-- The function `Combine(poly *crc32.Table, crc1, crc2 uint32, length int) uint32`.
After the guard `length <= 0` the length is positive, and `length & 1`,
`length >>= 1` on it are the operations on the natural number `length.toNat`,
which is also the fuel of the loop (it halves at every iteration). -/
def Combine (poly : Table) (crc1 crc2 : Nat) (length : Int) : Option Nat :=
  if length ≤ 0 then some crc1
  else
    match seedOdd poly, seedEven poly with
    | some odd, some even =>
      match combineLoop length.toNat odd even length.toNat crc1 with
      | some crc1' => some (crc1' ^^^ crc2)
      | none => none
    | _, _ => none

/-! ## The external collaborator: Go's `hash/crc32` -/

/-- The predefined polynomial `crc32.IEEE`. -/
def IEEE : Nat := 0xedb88320

/-- The predefined polynomial `crc32.Castagnoli`. -/
def Castagnoli : Nat := 0x82f63b78

/-- The predefined polynomial `crc32.Koopman`. -/
def Koopman : Nat := 0xeb31d82e

/-- Modelled from the spec: one round of the table construction of the standard
reflected CRC-32 (Go's `hash/crc32`, not part of this repository):
`if crc&1 == 1 { crc = (crc >> 1) ^ poly } else { crc >>= 1 }`, which is also the
shift of the register by one zero bit. -/
def step (poly crc : Nat) : Nat :=
  if crc &&& 1 = 1 then (crc >>> 1) ^^^ poly else crc >>> 1

/-- Modelled from the spec: the standard 256-entry byte-wise table of a
reflected polynomial (`crc32.MakeTable` of Go's `hash/crc32`, not part of this
repository): entry `i` is `i` after eight rounds of `step`. -/
def makeTable (poly : Nat) : Table :=
  (List.range 256).map
    (fun i => step poly (step poly (step poly (step poly
      (step poly (step poly (step poly (step poly i))))))))

/-- Modelled from the spec: the per-byte loop of the standard table-driven
CRC-32 (`crc32.Update` of Go's `hash/crc32`, not part of this repository):
`crc = tab[byte(crc)^v] ^ (crc >> 8)` for every byte `v`. -/
def updateLoop (tab : Table) (crc : Nat) : List Nat → Nat
  | [] => crc
  | v :: p => updateLoop tab (tab.getD ((crc &&& 0xff) ^^^ v) 0 ^^^ (crc >>> 8)) p

/-- Modelled from the spec: the standard CRC-32 of a byte sequence
(`crc32.Checksum` of Go's `hash/crc32`, not part of this repository): the
register is pre-inverted, updated by one table lookup per byte, and
post-inverted; the initial checksum is 0. -/
def checksum (tab : Table) (data : List Nat) : Nat :=
  updateLoop tab (0 ^^^ 0xffffffff) data ^^^ 0xffffffff

/-- A byte sequence: every element is a Go `byte`. -/
def Bytes (p : List Nat) : Prop := ∀ v ∈ p, v < 256

instance (p : List Nat) : Decidable (Bytes p) := by unfold Bytes; infer_instance

/-- The byte sequence of `n` zero bytes. -/
def zeros (n : Nat) : List Nat := List.replicate n 0

/-- Modelled from the spec: the update of the register of the standard
table-driven CRC-32 by one zero byte, `tab[byte(crc)] ^ (crc >> 8)` (the body of
the loop of `crc32.Update` at `v = 0`). -/
def zeroByte (tab : Table) (crc : Nat) : Nat :=
  tab.getD (crc &&& 0xff) 0 ^^^ (crc >>> 8)

/-! ## Specification-level notions -/

/-- XOR of the rows `m[j]`, `j < k`, at the bit positions `j` that are set in `vec`. -/
def xorRows (m : gf2Mat) (vec : Nat) : Nat → Nat
  | 0 => 0
  | k + 1 => xorRows m vec k ^^^ (if vec.testBit k then m.getD k 0 else 0)

/-- The plain fold over all 32 bit positions: for each set bit `j` of `vec`,
XOR row `j` of `m` into the accumulator; unset bits contribute nothing. -/
def mulSpec (m : gf2Mat) (vec : Nat) : Nat :=
  (List.range 32).foldl (fun acc j => if vec.testBit j then acc ^^^ m.getD j 0 else acc) 0

/-- A GF(2)-linear map on registers: it commutes with XOR. -/
def Linear (f : Nat → Nat) : Prop := ∀ a b, f (a ^^^ b) = f a ^^^ f b

/-- The matrix whose row `n` is the operator of `lhs` applied to row `n` of `lhs`. -/
def sqMat (lhs : gf2Mat) : gf2Mat := lhs.map (fun r => xorRows lhs r 32)

/-- The matrix `odd` of `Combine` after the seeding from the table. -/
def oddOf (poly : Table) : gf2Mat :=
  (((initOdd.set 0 (poly.getD 16 0)).set 1 (poly.getD 32 0)).set 2 (poly.getD 64 0)).set 3
    (poly.getD 128 0)

/-- The matrix `even` of `Combine` after the seeding from the table. -/
def evenOf (poly : Table) : gf2Mat :=
  (initEven.set 0 (poly.getD 64 0)).set 1 (poly.getD 128 0)

/-- The `n`-fold application of a fallible register operator. -/
def iterOpt (f : Nat → Option Nat) : Nat → Nat → Option Nat
  | 0, v => some v
  | n + 1, v => (f v).bind (iterOpt f n)

/-- The operator `Z(v) = sqrt(odd).mul(v)`: the seeded `odd` is squared into the
seeded `even` buffer and the result is applied to `v`. -/
def zeroOp (poly : Table) (v : Nat) : Option Nat :=
  match seedOdd poly, seedEven poly with
  | some odd, some even =>
    match sqrt even odd with
    | some even' => mul even' v
    | none => none
  | _, _ => none

/-- The buffers `(pOdd, pEven)` of the loop of `Combine` after `k` iterations:
each iteration squares `pOdd` into `pEven` and swaps the two. -/
def buffersAfter : Nat → gf2Mat → gf2Mat → Option (gf2Mat × gf2Mat)
  | 0, pOdd, pEven => some (pOdd, pEven)
  | k + 1, pOdd, pEven =>
    match sqrt pEven pOdd with
    | some pEven' => buffersAfter k pEven' pOdd
    | none => none

/-- The matrix produced by the `k`-th squaring of the loop of `Combine`. -/
def kthSquare (poly : Table) (k : Nat) : Option gf2Mat :=
  match seedOdd poly, seedEven poly with
  | some odd, some even => (buffersAfter k odd even).map Prod.fst
  | _, _ => none

/-- The operator applied by the first iteration of the loop of `Combine`, as a
total function: the XOR of the rows of the square of the seeded `odd`. -/
def zeroOpFn (poly : Table) (v : Nat) : Nat := xorRows (sqMat (oddOf poly)) v 32

/-- The matrix of the inverse of the operator `v ↦ Z(v) XOR v`, for `Z` the
operator of one zero byte under the IEEE table. -/
def ieeeFixInv : gf2Mat :=
  [0x2a456efb, 0x548addf6, 0xa915bbec, 0x895a7199, 0xc9c5e573, 0x48facca7, 0x91f5994e,
   0xf89a34dd, 0x2a456ffb, 0x548adff6, 0xa915bfec, 0x895a7999, 0xc9c5f573, 0x48faeca7,
   0x91f5d94e, 0xf89ab4dd, 0x2a446ffb, 0x5488dff6, 0xa911bfec, 0x89527999, 0xc9d5f573,
   0x48daeca7, 0x91b5d94e, 0xf81ab4dd, 0x2b446ffb, 0x5688dff6, 0xad11bfec, 0x81527999,
   0xd9d5f573, 0x68daeca7, 0xd1b5d94e, 0x781ab4dd]

/-! ## The matrix operations -/

theorem getElem?_eq_some_getD {m : List Nat} {j : Nat} (h : j < m.length) :
    m[j]? = some (m.getD j 0) := by
  simp [List.getD_eq_getElem?_getD, List.getElem?_eq_getElem h]

theorem bitTerm (r vec j : Nat) (hr : r < 2 ^ 32) :
    (r * ((vec >>> j) &&& 1)) % 2 ^ 32 = if vec.testBit j then r else 0 := by
  rw [Nat.and_one_is_mod, Nat.testBit_to_div_mod, Nat.shiftRight_eq_div_pow]
  rcases Nat.mod_two_eq_zero_or_one (vec / 2 ^ j) with h | h
  · simp [h]
  · simpa [h] using Nat.mod_eq_of_lt hr

theorem getD_lt {m : gf2Mat} (hm : MatWF m) (j : Nat) : m.getD j 0 < 2 ^ 32 := by
  by_cases h : j < m.length
  · rw [List.getD_eq_getElem _ _ h]; exact hm.2 _ (List.getElem_mem _)
  · rw [List.getD_eq_default _ _ (by omega)]; decide

theorem testBit_false_of_shiftRight_eq_zero {v a j : Nat} (h : v >>> a = 0) (hj : a ≤ j) :
    v.testBit j = false := by
  have : (v >>> a).testBit (j - a) = false := by simp [h]
  rw [Nat.testBit_shiftRight] at this
  rwa [show a + (j - a) = j by omega] at this

theorem xorRows_of_shiftRight_eq_zero (m : gf2Mat) {v a : Nat} (h : v >>> a = 0) (b : Nat) :
    xorRows m v (a + b) = xorRows m v a := by
  induction b with
  | zero => rfl
  | succ b ih =>
    rw [← Nat.add_assoc, xorRows, ih, testBit_false_of_shiftRight_eq_zero h (by omega)]
    simp

theorem mulLoop_spec {m : gf2Mat} (hm : MatWF m) {v0 : Nat} (hv : v0 < 2 ^ 32) :
    ∀ (fuel q : Nat), q ≤ 8 → v0 >>> (4 * q) < 16 ^ fuel →
      mulLoop fuel m (4 * q) (v0 >>> (4 * q)) (xorRows m v0 (4 * q)) = some (xorRows m v0 32) := by
  intro fuel
  induction fuel with
  | zero =>
    intro q hq hlt
    have h0 : v0 >>> (4 * q) = 0 := by simpa using hlt
    have := xorRows_of_shiftRight_eq_zero m h0 (32 - 4 * q)
    rw [show 4 * q + (32 - 4 * q) = 32 by omega] at this
    simp [mulLoop, h0, this]
  | succ fuel ih =>
    intro q hq hlt
    by_cases h0 : v0 >>> (4 * q) = 0
    · have := xorRows_of_shiftRight_eq_zero m h0 (32 - 4 * q)
      rw [show 4 * q + (32 - 4 * q) = 32 by omega] at this
      simp [mulLoop, h0, this]
    · have hq8 : q < 8 := by
        by_contra hc
        have : q = 8 := by omega
        subst this
        apply h0
        rw [Nat.shiftRight_eq_div_pow]
        exact Nat.div_eq_of_lt hv
      have hlen := hm.1
      rw [mulLoop, if_neg h0, getElem?_eq_some_getD (by omega), getElem?_eq_some_getD (by omega),
        getElem?_eq_some_getD (by omega), getElem?_eq_some_getD (by omega)]
      simp only []
      have e0 := bitTerm (m.getD (4 * q) 0) (v0 >>> (4 * q)) 0 (getD_lt hm _)
      have e1 := bitTerm (m.getD (4 * q + 1) 0) (v0 >>> (4 * q)) 1 (getD_lt hm _)
      have e2 := bitTerm (m.getD (4 * q + 2) 0) (v0 >>> (4 * q)) 2 (getD_lt hm _)
      have e3 := bitTerm (m.getD (4 * q + 3) 0) (v0 >>> (4 * q)) 3 (getD_lt hm _)
      rw [Nat.shiftRight_zero] at e0
      rw [e0, e1, e2, e3]
      simp only [Nat.testBit_shiftRight, Nat.add_zero]
      have hs : xorRows m v0 (4 * q) ^^^
          ((((if v0.testBit (4 * q) then m.getD (4 * q) 0 else 0) ^^^
            (if v0.testBit (4 * q + 1) then m.getD (4 * q + 1) 0 else 0)) ^^^
            (if v0.testBit (4 * q + 2) then m.getD (4 * q + 2) 0 else 0)) ^^^
            (if v0.testBit (4 * q + 3) then m.getD (4 * q + 3) 0 else 0))
          = xorRows m v0 (4 * (q + 1)) := by
        rw [show 4 * (q + 1) = 4 * q + 1 + 1 + 1 + 1 by ring]
        simp only [xorRows, Nat.xor_assoc]
      rw [hs]
      have := ih (q + 1) (by omega) (by
        rw [show 4 * (q + 1) = 4 * q + 4 by ring, Nat.shiftRight_add]
        rw [Nat.shiftRight_eq_div_pow (v0 >>> (4 * q)) 4]
        apply Nat.div_lt_of_lt_mul
        rw [pow_succ] at hlt
        omega)
      rw [show 4 * (q + 1) = 4 * q + 4 by ring] at this ⊢
      rw [Nat.shiftRight_add] at this
      exact this

theorem mul_eq {m : gf2Mat} (hm : MatWF m) {v : Nat} (hv : v < 2 ^ 32) :
    mul m v = some (xorRows m v 32) := by
  have h := mulLoop_spec hm hv v 0 (by omega) (by
    simpa using Nat.lt_pow_self (by norm_num : 1 < 16) v)
  simpa [mul, xorRows] using h

theorem mulLoop_eight {m : gf2Mat} (hm : MatWF m) {v : Nat} (hv : v < 2 ^ 32) :
    mulLoop 8 m 0 v 0 = some (xorRows m v 32) := by
  have h := mulLoop_spec hm hv 8 0 (by omega) (by simpa using hv)
  simpa [xorRows] using h

theorem xorRows_lt {m : gf2Mat} (hm : MatWF m) (v k : Nat) : xorRows m v k < 2 ^ 32 := by
  induction k with
  | zero => simp [xorRows]
  | succ k ih =>
    rw [xorRows]
    apply Nat.xor_lt_two_pow ih
    split
    · exact getD_lt hm k
    · decide

theorem xorRows_zero (m : gf2Mat) (k : Nat) : xorRows m 0 k = 0 := by
  induction k with
  | zero => rfl
  | succ k ih => simp [xorRows, ih]

theorem xor_xor_xor_comm (a b c d : Nat) : (a ^^^ b) ^^^ (c ^^^ d) = (a ^^^ c) ^^^ (b ^^^ d) := by
  rw [Nat.xor_assoc, Nat.xor_assoc, ← Nat.xor_assoc b, Nat.xor_comm b c, Nat.xor_assoc c]

theorem xorRows_xor (m : gf2Mat) (a b k : Nat) :
    xorRows m (a ^^^ b) k = xorRows m a k ^^^ xorRows m b k := by
  induction k with
  | zero => simp [xorRows]
  | succ k ih =>
    simp only [xorRows, ih, Nat.testBit_xor]
    rw [xor_xor_xor_comm]
    congr 1
    cases a.testBit k <;> cases b.testBit k <;> simp

theorem Linear.map_zero {f : Nat → Nat} (hf : Linear f) : f 0 = 0 := by
  have := hf 0 0
  simp at this
  have h2 : f 0 ^^^ f 0 = 0 := Nat.xor_self _
  omega

theorem getD_map_linear {f : Nat → Nat} (hf : Linear f) (m : List Nat) (k : Nat) :
    (m.map f).getD k 0 = f (m.getD k 0) := by
  by_cases h : k < m.length
  · rw [List.getD_eq_getElem _ _ (by simpa using h), List.getD_eq_getElem _ _ h]; simp
  · rw [List.getD_eq_default _ _ (by simpa using h), List.getD_eq_default _ _ (by omega),
      hf.map_zero]

theorem xorRows_map {f : Nat → Nat} (hf : Linear f) (m : gf2Mat) (v k : Nat) :
    xorRows (m.map f) v k = f (xorRows m v k) := by
  induction k with
  | zero => simp [xorRows, hf.map_zero]
  | succ k ih =>
    rw [xorRows, xorRows, hf, ih, getD_map_linear hf]
    congr 1
    split <;> simp [hf.map_zero]

theorem linear_xorRows (m : gf2Mat) (k : Nat) : Linear (fun v => xorRows m v k) :=
  fun a b => xorRows_xor m a b k

theorem sqMat_wf {lhs : gf2Mat} (h : MatWF lhs) : MatWF (sqMat lhs) := by
  refine ⟨by simpa [sqMat] using h.1, ?_⟩
  intro r hr
  simp only [sqMat, List.mem_map] at hr
  obtain ⟨a, _, rfl⟩ := hr
  exact xorRows_lt h _ _

theorem xorRows_sqMat (lhs : gf2Mat) (v k : Nat) :
    xorRows (sqMat lhs) v k = xorRows lhs (xorRows lhs v k) 32 :=
  xorRows_map (linear_xorRows lhs 32) lhs v k

theorem take_succ_set (m : List Nat) (n a : Nat) (h : n < m.length) :
    (m.set n a).take (n + 1) = m.take n ++ [a] := by
  induction m generalizing n with
  | nil => simp at h
  | cons x xs ih =>
    cases n with
    | zero => simp
    | succ n => simpa using ih n (by simpa using h)

theorem sqrtLoop_eq {lhs : gf2Mat} (hl : MatWF lhs) :
    ∀ (rest : List Nat) (n : Nat) (m : gf2Mat), (∀ r ∈ rest, r < 2 ^ 32) →
      n + rest.length = m.length →
      sqrtLoop lhs rest n m = some (m.take n ++ rest.map (fun r => xorRows lhs r 32)) := by
  intro rest
  induction rest with
  | nil =>
    intro n m _ hn
    simp only [List.length_nil, Nat.add_zero] at hn
    simp [sqrtLoop, hn]
  | cons val rest ih =>
    intro n m hr hn
    simp only [List.length_cons] at hn
    have hlt : n < m.length := by omega
    rw [sqrtLoop, mul_eq hl (hr val (List.mem_cons_self _ _))]
    simp only [if_pos hlt]
    rw [ih (n + 1) (m.set n _) (fun r h => hr r (List.mem_cons_of_mem _ h))
      (by simp; omega)]
    rw [take_succ_set m n _ hlt]
    simp

theorem sqrt_eq {m lhs : gf2Mat} (hl : MatWF lhs) (hm : m.length = 32) :
    sqrt m lhs = some (sqMat lhs) := by
  rw [sqrt, sqrtLoop_eq hl lhs 0 m hl.2 (by simp [hl.1, hm])]
  simp [sqMat]

/-! ## The loop of `Combine` -/

theorem mod_two_of_and_one_ne {n : Nat} (h : n &&& 1 ≠ 0) : n % 2 = 1 := by
  rw [Nat.and_one_is_mod] at h; omega

theorem combineLoop_eq :
    ∀ (fuel n : Nat) (pOdd pEven : gf2Mat) (crc : Nat), MatWF pOdd → pEven.length = 32 →
      crc < 2 ^ 32 → n < 2 ^ fuel →
      combineLoop fuel pOdd pEven n crc
        = some ((fun v => xorRows (sqMat pOdd) v 32)^[n] crc) := by
  intro fuel
  induction fuel with
  | zero =>
    intro n pOdd pEven crc _ _ _ hn
    have : n = 0 := by simpa using hn
    subst this
    simp [combineLoop]
  | succ fuel ih =>
    intro n pOdd pEven crc ho he hc hn
    by_cases h0 : n = 0
    · subst h0; simp [combineLoop]
    · rw [combineLoop, if_neg h0, sqrt_eq ho he]
      simp only []
      have hE := sqMat_wf ho
      have hsq : (fun v => xorRows (sqMat (sqMat pOdd)) v 32)
          = (fun v => xorRows (sqMat pOdd) v 32)^[2] := by
        funext v
        simp only [Function.iterate_succ, Function.iterate_zero, Function.comp_apply, id_eq]
        exact xorRows_sqMat (sqMat pOdd) v 32
      have hn2 : n >>> 1 < 2 ^ fuel := by
        rw [Nat.shiftRight_eq_div_pow]
        apply Nat.div_lt_of_lt_mul
        rw [pow_succ] at hn
        omega
      have hdiv : n >>> 1 = n / 2 := by rw [Nat.shiftRight_eq_div_pow, pow_one]
      by_cases hb : n &&& 1 ≠ 0
      · rw [if_pos hb, mul_eq hE hc]
        simp only []
        rw [ih _ _ _ _ hE ho.1 (xorRows_lt hE _ _) hn2, hsq, ← Function.iterate_mul, hdiv,
          ← Function.iterate_succ_apply]
        have : n % 2 = 1 := mod_two_of_and_one_ne hb
        congr 2
        omega
      · rw [if_neg hb]
        simp only []
        rw [ih _ _ _ _ hE ho.1 hc hn2, hsq, ← Function.iterate_mul, hdiv]
        have : n % 2 = 0 := by
          have : n &&& 1 = 0 := by simpa using hb
          rw [Nat.and_one_is_mod] at this; exact this
        congr 2
        omega

theorem table_getD_lt {t : Table} (ht : TableWF t) (i : Nat) : t.getD i 0 < 2 ^ 32 := by
  by_cases h : i < t.length
  · rw [List.getD_eq_getElem _ _ h]; exact ht.2 _ (List.getElem_mem _)
  · rw [List.getD_eq_default _ _ (by omega)]; decide

theorem matWF_set {m : gf2Mat} (hm : MatWF m) (i : Nat) {a : Nat} (ha : a < 2 ^ 32) :
    MatWF (m.set i a) := by
  refine ⟨by simpa using hm.1, ?_⟩
  intro r hr
  rcases List.mem_or_eq_of_mem_set hr with h | h
  · exact hm.2 r h
  · exact h ▸ ha

theorem initOdd_wf : MatWF initOdd := by decide

theorem initEven_wf : MatWF initEven := by decide

theorem oddOf_wf {t : Table} (ht : TableWF t) : MatWF (oddOf t) :=
  matWF_set (matWF_set (matWF_set (matWF_set initOdd_wf 0 (table_getD_lt ht _)) 1
    (table_getD_lt ht _)) 2 (table_getD_lt ht _)) 3 (table_getD_lt ht _)

theorem evenOf_wf {t : Table} (ht : TableWF t) : MatWF (evenOf t) :=
  matWF_set (matWF_set initEven_wf 0 (table_getD_lt ht _)) 1 (table_getD_lt ht _)

theorem seedOdd_eq {t : Table} (ht : t.length = 256) : seedOdd t = some (oddOf t) := by
  simp [seedOdd, oddOf, getElem?_eq_some_getD, ht]

theorem evenOf_length (t : Table) : (evenOf t).length = 32 := by simp [evenOf, initEven]

theorem seedEven_eq {t : Table} (ht : t.length = 256) : seedEven t = some (evenOf t) := by
  simp [seedEven, evenOf, getElem?_eq_some_getD, ht]

theorem Combine_eq {t : Table} (ht : TableWF t) {crc1 : Nat} (h1 : crc1 < 2 ^ 32) (crc2 : Nat)
    {length : Int} (hl : 0 < length) :
    Combine t crc1 crc2 length = some ((zeroOpFn t)^[length.toNat] crc1 ^^^ crc2) := by
  rw [Combine, if_neg (by omega), seedOdd_eq ht.1, seedEven_eq ht.1]
  simp only []
  rw [combineLoop_eq _ _ _ _ _ (oddOf_wf ht) (evenOf_length t) h1 (Nat.lt_two_pow _)]
  rfl

/-! ## The register of the standard CRC-32 -/

theorem step_linear (P : Nat) : Linear (step P) := by
  intro a b
  have hx : (a ^^^ b) >>> 1 = a >>> 1 ^^^ b >>> 1 := by
    simp only [Nat.shiftRight_eq_div_pow, pow_one, Nat.xor_div_two]
  have hm : (a ^^^ b) % 2 = (a + b) % 2 := Nat.xor_mod_two_eq
  simp only [step, Nat.and_one_is_mod, hx, hm]
  rcases Nat.mod_two_eq_zero_or_one a with ha | ha <;>
    rcases Nat.mod_two_eq_zero_or_one b with hb | hb
  · have : (a + b) % 2 = 0 := by omega
    simp [ha, hb, this]
  · have : (a + b) % 2 = 1 := by omega
    simp [ha, hb, this, Nat.xor_assoc]
  · have : (a + b) % 2 = 1 := by omega
    simp only [ha, hb, this, if_true]
    simp [Nat.xor_assoc, Nat.xor_comm P]
  · have : (a + b) % 2 = 0 := by omega
    simp only [ha, hb, this, if_true]
    rw [xor_xor_xor_comm]; simp

theorem step_two_mul (P x : Nat) : step P (2 * x) = x := by
  simp [step, Nat.shiftRight_eq_div_pow]

theorem step_lt {P : Nat} (hP : P < 2 ^ 32) {v : Nat} (hv : v < 2 ^ 32) : step P v < 2 ^ 32 := by
  have h1 : v >>> 1 < 2 ^ 32 := by
    rw [Nat.shiftRight_eq_div_pow]; exact lt_of_le_of_lt (Nat.div_le_self _ _) hv
  unfold step
  split
  · exact Nat.xor_lt_two_pow h1 hP
  · exact h1

theorem linear_iterate {f : Nat → Nat} (hf : Linear f) (n : Nat) : Linear (f^[n]) := by
  induction n with
  | zero => intro a b; rfl
  | succ n ih => intro a b; simp only [Function.iterate_succ_apply, hf a b, ih _ _]

theorem iterate_step_shift (P x : Nat) (k : Nat) : (step P)^[k] (2 ^ k * x) = x := by
  induction k generalizing x with
  | zero => simp
  | succ k ih =>
    rw [Function.iterate_succ_apply, pow_succ, show 2 ^ k * 2 * x = 2 * (2 ^ k * x) by ring,
      step_two_mul, ih]

theorem iterate_step_lt {P : Nat} (hP : P < 2 ^ 32) (k : Nat) {v : Nat} (hv : v < 2 ^ 32) :
    (step P)^[k] v < 2 ^ 32 := by
  induction k generalizing v with
  | zero => simpa using hv
  | succ k ih => rw [Function.iterate_succ_apply]; exact ih (step_lt hP hv)

theorem split_low (v k : Nat) : v = (v % 2 ^ k) ^^^ (2 ^ k * (v / 2 ^ k)) := by
  apply Nat.eq_of_testBit_eq
  intro i
  rw [Nat.testBit_xor, Nat.testBit_mod_two_pow, Nat.testBit_mul_pow_two]
  by_cases h : i < k
  · simp [h, Nat.not_le.mpr h]
  · have h' : k ≤ i := by omega
    have e : (v / 2 ^ k).testBit (i - k) = v.testBit i := by
      rw [← Nat.shiftRight_eq_div_pow, Nat.testBit_shiftRight, Nat.add_sub_cancel' h']
    simp [h, h', e]

theorem split_bit (v k : Nat) :
    v % 2 ^ (k + 1) = (v % 2 ^ k) ^^^ (if v.testBit k then 2 ^ k else 0) := by
  apply Nat.eq_of_testBit_eq
  intro i
  rw [Nat.testBit_xor, Nat.testBit_mod_two_pow, Nat.testBit_mod_two_pow]
  by_cases hk : v.testBit k
  · simp only [hk, if_true, Nat.testBit_two_pow]
    rcases Nat.lt_trichotomy i k with h | h | h
    · simp [h, show i < k + 1 by omega, show k ≠ i by omega]
    · subst h; simp [hk]
    · simp [show ¬ i < k by omega, show ¬ i < k + 1 by omega, show k ≠ i by omega]
  · simp only [hk, Nat.zero_testBit, Bool.xor_false]
    rcases Nat.lt_trichotomy i k with h | h | h
    · simp [h, show i < k + 1 by omega]
    · subst h; simp [hk]
    · simp [show ¬ i < k by omega, show ¬ i < k + 1 by omega]

theorem xorRows_basis {f : Nat → Nat} (hf : Linear f) (m : gf2Mat) (v : Nat) :
    ∀ k, (∀ j < k, m.getD j 0 = f (2 ^ j)) → xorRows m v k = f (v % 2 ^ k) := by
  intro k
  induction k with
  | zero => intro _; simp [xorRows, Nat.mod_one, hf.map_zero]
  | succ k ih =>
    intro h
    rw [xorRows, ih (fun j hj => h j (by omega)), split_bit, hf, h k (by omega)]
    congr 1
    split <;> simp [hf.map_zero]

theorem makeTable_length (P : Nat) : (makeTable P).length = 256 := by simp [makeTable]

theorem makeTable_getD (P : Nat) {i : Nat} (hi : i < 256) :
    (makeTable P).getD i 0 = (step P)^[8] i := by
  rw [List.getD_eq_getElem _ _ (by simpa [makeTable] using hi)]
  simp [makeTable]

theorem makeTable_wf {P : Nat} (hP : P < 2 ^ 32) : TableWF (makeTable P) := by
  refine ⟨makeTable_length P, ?_⟩
  intro x hx
  simp only [makeTable, List.mem_map, List.mem_range] at hx
  obtain ⟨i, hi, rfl⟩ := hx
  exact iterate_step_lt hP 8 (show i < 2 ^ 32 by omega)

/-- One zero byte through the register: eight zero bits. -/
theorem zeroByte_makeTable (P v : Nat) : zeroByte (makeTable P) v = (step P)^[8] v := by
  have hlow : v &&& 0xff = v % 2 ^ 8 := by
    rw [show (0xff : Nat) = 2 ^ 8 - 1 by norm_num, Nat.and_pow_two_sub_one_eq_mod]
  have hlt : v % 2 ^ 8 < 256 := Nat.mod_lt _ (by norm_num)
  rw [zeroByte, hlow, makeTable_getD P hlt, Nat.shiftRight_eq_div_pow]
  conv_rhs => rw [split_low v 8, linear_iterate (step_linear P) 8, iterate_step_shift]

theorem oddOf_getD (P : Nat) : ∀ j < 32, (oddOf (makeTable P)).getD j 0 = (step P)^[4] (2 ^ j) := by
  intro j hj
  have hs : ∀ i, (step P)^[4] (2 ^ (i + 4)) = 2 ^ i := fun i => by
    rw [pow_add, Nat.mul_comm]; exact iterate_step_shift P _ 4
  have ht : ∀ i, i < 4 → (makeTable P).getD (2 ^ (i + 4)) 0 = (step P)^[4] (2 ^ i) := by
    intro i hi
    rw [makeTable_getD P (by interval_cases i <;> norm_num),
      show 8 = 4 + 4 from rfl, Function.iterate_add_apply, hs]
  by_cases h4 : j < 4
  · have := ht j h4
    interval_cases j <;> simpa [oddOf, initOdd] using this
  · obtain ⟨i, rfl⟩ : ∃ i, j = i + 4 := ⟨j - 4, by omega⟩
    rw [hs]
    have : i < 28 := by omega
    interval_cases i <;> simp [oddOf, initOdd]

theorem evenOf_getD (P : Nat) :
    ∀ j < 32, (evenOf (makeTable P)).getD j 0 = (step P)^[2] (2 ^ j) := by
  intro j hj
  have hs : ∀ i, (step P)^[2] (2 ^ (i + 2)) = 2 ^ i := fun i => by
    rw [pow_add, Nat.mul_comm]; exact iterate_step_shift P _ 2
  have hs6 : ∀ i, (step P)^[6] (2 ^ (i + 6)) = 2 ^ i := fun i => by
    rw [pow_add, Nat.mul_comm]; exact iterate_step_shift P _ 6
  have ht : ∀ i, i < 2 → (makeTable P).getD (2 ^ (i + 6)) 0 = (step P)^[2] (2 ^ i) := by
    intro i hi
    rw [makeTable_getD P (by interval_cases i <;> norm_num),
      show 8 = 2 + 6 from rfl, Function.iterate_add_apply, hs6]
  by_cases h2 : j < 2
  · have := ht j h2
    interval_cases j <;> simpa [evenOf, initEven] using this
  · obtain ⟨i, rfl⟩ : ∃ i, j = i + 2 := ⟨j - 2, by omega⟩
    rw [hs]
    have : i < 30 := by omega
    interval_cases i <;> simp [evenOf, initEven]

theorem oddOf_apply (P : Nat) {v : Nat} (hv : v < 2 ^ 32) :
    xorRows (oddOf (makeTable P)) v 32 = (step P)^[4] v := by
  rw [xorRows_basis (linear_iterate (step_linear P) 4) _ v 32 (oddOf_getD P), Nat.mod_eq_of_lt hv]

theorem evenOf_apply (P : Nat) {v : Nat} (hv : v < 2 ^ 32) :
    xorRows (evenOf (makeTable P)) v 32 = (step P)^[2] v := by
  rw [xorRows_basis (linear_iterate (step_linear P) 2) _ v 32 (evenOf_getD P), Nat.mod_eq_of_lt hv]

theorem zeroOpFn_makeTable {P : Nat} (hP : P < 2 ^ 32) {v : Nat} (hv : v < 2 ^ 32) :
    zeroOpFn (makeTable P) v = zeroByte (makeTable P) v := by
  rw [zeroOpFn, xorRows_sqMat, oddOf_apply P hv, oddOf_apply P (iterate_step_lt hP 4 hv),
    zeroByte_makeTable, ← Function.iterate_add_apply]

theorem zeroOpFn_lt {t : Table} (ht : TableWF t) (v : Nat) : zeroOpFn t v < 2 ^ 32 :=
  xorRows_lt (sqMat_wf (oddOf_wf ht)) _ _

theorem iterate_congr_on {f g : Nat → Nat} (p : Nat → Prop) (hfg : ∀ v, p v → f v = g v)
    (hp : ∀ v, p v → p (f v)) (n : Nat) {x : Nat} (hx : p x) : f^[n] x = g^[n] x := by
  induction n generalizing x with
  | zero => rfl
  | succ n ih =>
    rw [Function.iterate_succ_apply, Function.iterate_succ_apply, ← hfg x hx]
    exact ih (hp x hx)

theorem zeroOpFn_iterate {P : Nat} (hP : P < 2 ^ 32) (n : Nat) {v : Nat} (hv : v < 2 ^ 32) :
    (zeroOpFn (makeTable P))^[n] v = (zeroByte (makeTable P))^[n] v :=
  iterate_congr_on (fun v => v < 2 ^ 32) (fun _ h => zeroOpFn_makeTable hP h)
    (fun v _ => zeroOpFn_lt (makeTable_wf hP) v) n hv

theorem xor_left_comm3 (a b c : Nat) : a ^^^ (b ^^^ c) = b ^^^ (a ^^^ c) := by
  rw [← Nat.xor_assoc, Nat.xor_comm a b, Nat.xor_assoc]

theorem updateLoop_append (t : Table) (s : Nat) (A B : List Nat) :
    updateLoop t s (A ++ B) = updateLoop t (updateLoop t s A) B := by
  induction A generalizing s with
  | nil => rfl
  | cons a A ih => exact ih _

theorem update_byte (P s : Nat) {v : Nat} (hv : v < 256) :
    (makeTable P).getD ((s &&& 0xff) ^^^ v) 0 ^^^ (s >>> 8) = (step P)^[8] (s ^^^ v) := by
  rw [← zeroByte_makeTable, zeroByte]
  have hlow : ∀ x, x &&& 0xff = x % 2 ^ 8 := fun x => by
    rw [show (0xff : Nat) = 2 ^ 8 - 1 by norm_num, Nat.and_pow_two_sub_one_eq_mod]
  have h1 : (s ^^^ v) % 2 ^ 8 = (s % 2 ^ 8) ^^^ v := by
    apply Nat.eq_of_testBit_eq
    intro i
    simp only [Nat.testBit_xor, Nat.testBit_mod_two_pow]
    by_cases h : i < 8
    · simp [h]
    · have : v.testBit i = false :=
        Nat.testBit_lt_two_pow (lt_of_lt_of_le hv (by
          calc 256 = 2 ^ 8 := by norm_num
            _ ≤ 2 ^ i := Nat.pow_le_pow_right (by norm_num) (by omega)))
      simp [h, this]
  have h2 : (s ^^^ v) >>> 8 = s >>> 8 := by
    rw [Nat.shiftRight_eq_div_pow, Nat.shiftRight_eq_div_pow]
    apply Nat.eq_of_testBit_eq
    intro i
    rw [← Nat.shiftRight_eq_div_pow, ← Nat.shiftRight_eq_div_pow, Nat.testBit_shiftRight,
      Nat.testBit_shiftRight, Nat.testBit_xor]
    have : v.testBit (8 + i) = false :=
      Nat.testBit_lt_two_pow (lt_of_lt_of_le hv (by
        calc 256 = 2 ^ 8 := by norm_num
          _ ≤ 2 ^ (8 + i) := Nat.pow_le_pow_right (by norm_num) (by omega)))
    simp [this]
  rw [hlow, hlow, h1, h2]

theorem updateLoop_xor (P : Nat) (B : List Nat) (hB : Bytes B) (s d : Nat) :
    updateLoop (makeTable P) (s ^^^ d) B
      = updateLoop (makeTable P) s B ^^^ (zeroByte (makeTable P))^[B.length] d := by
  induction B generalizing s d with
  | nil => rfl
  | cons v B ih =>
    have hv : v < 256 := hB v (List.mem_cons_self _ _)
    have hB' : Bytes B := fun x hx => hB x (List.mem_cons_of_mem _ hx)
    simp only [updateLoop, List.length_cons, Function.iterate_succ_apply]
    rw [update_byte P _ hv, update_byte P _ hv, Nat.xor_assoc, Nat.xor_comm d v,
      ← Nat.xor_assoc, linear_iterate (step_linear P) 8, ih hB', zeroByte_makeTable]

theorem checksum_append (P : Nat) (A B : List Nat) (hB : Bytes B) :
    checksum (makeTable P) (A ++ B)
      = (zeroByte (makeTable P))^[B.length] (checksum (makeTable P) A)
          ^^^ checksum (makeTable P) B := by
  simp only [checksum, updateLoop_append]
  generalize updateLoop (makeTable P) (0 ^^^ 0xffffffff) A = r
  have : r = (0 ^^^ 0xffffffff) ^^^ (r ^^^ 0xffffffff) := by
    rw [Nat.zero_xor, Nat.xor_comm r, ← Nat.xor_assoc, Nat.xor_self, Nat.zero_xor]
  conv_lhs => rw [this, updateLoop_xor P B hB]
  simp only [Nat.xor_assoc]
  exact xor_left_comm3 _ _ _

theorem updateLoop_lt {t : Table} (ht : TableWF t) (p : List Nat) {s : Nat} (hs : s < 2 ^ 32) :
    updateLoop t s p < 2 ^ 32 := by
  induction p generalizing s with
  | nil => exact hs
  | cons v p ih =>
    rw [updateLoop]
    apply ih
    apply Nat.xor_lt_two_pow (table_getD_lt ht _)
    rw [Nat.shiftRight_eq_div_pow]
    exact lt_of_le_of_lt (Nat.div_le_self _ _) hs

theorem checksum_lt {t : Table} (ht : TableWF t) (p : List Nat) : checksum t p < 2 ^ 32 := by
  rw [checksum]
  exact Nat.xor_lt_two_pow (updateLoop_lt ht p (by decide)) (by decide)

/-- The defining property, for every reflected 32-bit polynomial. -/
theorem Combine_checksum {P : Nat} (hP : P < 2 ^ 32) (A B : List Nat) (hB : Bytes B) :
    Combine (makeTable P) (checksum (makeTable P) A) (checksum (makeTable P) B) B.length
      = some (checksum (makeTable P) (A ++ B)) := by
  have ht := makeTable_wf hP
  cases B with
  | nil => simp [Combine]
  | cons b B =>
    rw [Combine_eq ht (checksum_lt ht A) _ (by simp), checksum_append P A _ hB,
      zeroOpFn_iterate hP _ (checksum_lt ht A)]
    rfl

theorem zeroOpFn_iterate_zero (t : Table) (n : Nat) : (zeroOpFn t)^[n] 0 = 0 := by
  induction n with
  | zero => rfl
  | succ n ih => rw [Function.iterate_succ_apply, zeroOpFn, xorRows_zero]; exact ih

theorem checksum_nil (t : Table) : checksum t [] = 0 := by
  simp [checksum, updateLoop]

theorem Combine_eq_nat {t : Table} (ht : TableWF t) {crc1 : Nat} (h1 : crc1 < 2 ^ 32) (crc2 : Nat)
    {n : Nat} (hn : 0 < n) :
    Combine t crc1 crc2 (n : Int) = some ((zeroOpFn t)^[n] crc1 ^^^ crc2) := by
  rw [Combine_eq ht h1 crc2 (by exact_mod_cast hn), Int.toNat_ofNat]

theorem Combine_le_zero (t : Table) (crc1 crc2 : Nat) {length : Int} (h : length ≤ 0) :
    Combine t crc1 crc2 length = some crc1 := by
  rw [Combine, if_pos h]

theorem zeros_length (n : Nat) : (zeros n).length = n := by simp [zeros]

theorem zeros_bytes (n : Nat) : Bytes (zeros n) := by
  intro v hv
  rw [zeros, List.mem_replicate] at hv
  omega

theorem zeroOp_eq {t : Table} (ht : TableWF t) {v : Nat} (hv : v < 2 ^ 32) :
    zeroOp t v = some (zeroOpFn t v) := by
  rw [zeroOp, seedOdd_eq ht.1, seedEven_eq ht.1]
  simp only []
  rw [sqrt_eq (oddOf_wf ht) (evenOf_length t)]
  simp only []
  rw [mul_eq (sqMat_wf (oddOf_wf ht)) hv, zeroOpFn]

theorem iterOpt_zeroOp {t : Table} (ht : TableWF t) (n : Nat) {v : Nat} (hv : v < 2 ^ 32) :
    iterOpt (zeroOp t) n v = some ((zeroOpFn t)^[n] v) := by
  induction n generalizing v with
  | zero => rfl
  | succ n ih =>
    rw [iterOpt, zeroOp_eq ht hv, Option.some_bind, ih (zeroOpFn_lt ht v),
      Function.iterate_succ_apply]

theorem mulSpec_eq (m : gf2Mat) (vec : Nat) : mulSpec m vec = xorRows m vec 32 := by
  have h : ∀ k, (List.range k).foldl
      (fun acc j => if vec.testBit j then acc ^^^ m.getD j 0 else acc) 0 = xorRows m vec k := by
    intro k
    induction k with
    | zero => rfl
    | succ k ih =>
      rw [List.range_succ, List.foldl_append, ih]
      simp only [List.foldl_cons, List.foldl_nil, xorRows]
      split <;> simp
  exact h 32

theorem sqMat_iterate_wf {m : gf2Mat} (hm : MatWF m) (k : Nat) : MatWF (sqMat^[k] m) := by
  induction k with
  | zero => exact hm
  | succ k ih => rw [Function.iterate_succ_apply']; exact sqMat_wf ih

theorem buffersAfter_eq (k : Nat) :
    ∀ (pOdd pEven : gf2Mat), MatWF pOdd → pEven.length = 32 →
      ∃ X, buffersAfter k pOdd pEven = some (sqMat^[k] pOdd, X) := by
  induction k with
  | zero => intro pOdd pEven _ _; exact ⟨pEven, rfl⟩
  | succ k ih =>
    intro pOdd pEven ho he
    rw [buffersAfter, sqrt_eq ho he]
    simp only []
    obtain ⟨X, hX⟩ := ih (sqMat pOdd) pOdd (sqMat_wf ho) ho.1
    exact ⟨X, by rw [hX, Function.iterate_succ_apply]⟩

theorem sqMat_iterate_apply (P : Nat) (hP : P < 2 ^ 32) (k : Nat) :
    ∀ v, v < 2 ^ 32 →
      xorRows (sqMat^[k] (oddOf (makeTable P))) v 32 = (step P)^[4 * 2 ^ k] v := by
  induction k with
  | zero => intro v hv; simpa using oddOf_apply P hv
  | succ k ih =>
    intro v hv
    rw [Function.iterate_succ_apply', xorRows_sqMat, ih v hv,
      ih _ (iterate_step_lt hP _ hv), ← Function.iterate_add_apply]
    congr 1
    rw [pow_succ]; ring

theorem zeroByte_iterate (P : Nat) (n : Nat) (v : Nat) :
    (zeroByte (makeTable P))^[n] v = (step P)^[8 * n] v := by
  have : zeroByte (makeTable P) = (step P)^[8] := funext (zeroByte_makeTable P)
  rw [this, ← Function.iterate_mul]

/-- The lookups are checked: a `vec` of more than 32 bits, which no `uint32` is,
drives `mul` past row 31. -/
theorem mul_out_of_range : mul initOdd (2 ^ 32) = none := by decide

theorem mul_zero_vec (m : gf2Mat) : mul m 0 = some 0 := by
  simp [mul, mulLoop]

theorem zeroOpFn_linear (t : Table) : Linear (zeroOpFn t) :=
  fun a b => xorRows_xor _ a b 32

theorem Combine_congr_seed {t t' : Table} (ho : seedOdd t = seedOdd t')
    (he : seedEven t = seedEven t') (crc1 crc2 : Nat) (length : Int) :
    Combine t crc1 crc2 length = Combine t' crc1 crc2 length := by
  simp only [Combine, ho, he]

theorem combineLoop_none :
    ∀ (fuel n : Nat) (pOdd pEven : gf2Mat) (crc : Nat), MatWF pOdd → pEven.length = 32 →
      crc < 2 ^ 32 → 2 ^ fuel ≤ n → combineLoop fuel pOdd pEven n crc = none := by
  intro fuel
  induction fuel with
  | zero =>
    intro n pOdd pEven crc _ _ _ hn
    have : n ≠ 0 := by simp at hn; omega
    simp [combineLoop, this]
  | succ fuel ih =>
    intro n pOdd pEven crc ho he hc hn
    have h0 : n ≠ 0 := by
      have := Nat.two_pow_pos (fuel + 1); omega
    have hn2 : 2 ^ fuel ≤ n >>> 1 := by
      rw [Nat.shiftRight_eq_div_pow, pow_one, Nat.le_div_iff_mul_le (by norm_num)]
      rw [pow_succ] at hn; exact hn
    have hE := sqMat_wf ho
    rw [combineLoop, if_neg h0, sqrt_eq ho he]
    simp only []
    by_cases hb : n &&& 1 ≠ 0
    · rw [if_pos hb, mul_eq hE hc]
      simp only []
      exact ih _ _ _ _ hE ho.1 (xorRows_lt hE _ _) hn2
    · rw [if_neg hb]
      simp only []
      exact ih _ _ _ _ hE ho.1 hc hn2

theorem combineLoop_even_irrelevant (fuel n : Nat) (pOdd e1 e2 : gf2Mat) (crc : Nat)
    (ho : MatWF pOdd) (h1 : e1.length = 32) (h2 : e2.length = 32) (hc : crc < 2 ^ 32) :
    combineLoop fuel pOdd e1 n crc = combineLoop fuel pOdd e2 n crc := by
  by_cases h : n < 2 ^ fuel
  · rw [combineLoop_eq fuel n pOdd e1 crc ho h1 hc h, combineLoop_eq fuel n pOdd e2 crc ho h2 hc h]
  · rw [combineLoop_none fuel n pOdd e1 crc ho h1 hc (by omega),
      combineLoop_none fuel n pOdd e2 crc ho h2 hc (by omega)]

theorem sqMat_evenOf (P : Nat) (hP : P < 2 ^ 32) :
    sqMat (evenOf (makeTable P)) = oddOf (makeTable P) := by
  have ht := makeTable_wf hP
  have hl : (sqMat (evenOf (makeTable P))).length = (oddOf (makeTable P)).length := by
    rw [(sqMat_wf (evenOf_wf ht)).1, (oddOf_wf ht).1]
  apply List.ext_getElem hl
  intro j h1 h2
  have hj : j < 32 := by rw [(oddOf_wf ht).1] at h2; exact h2
  have e1 : (sqMat (evenOf (makeTable P)))[j] = (sqMat (evenOf (makeTable P))).getD j 0 :=
    (List.getD_eq_getElem _ _ h1).symm
  have e2 : (oddOf (makeTable P))[j] = (oddOf (makeTable P)).getD j 0 :=
    (List.getD_eq_getElem _ _ h2).symm
  rw [e1, e2, sqMat, getD_map_linear (linear_xorRows _ 32), oddOf_getD P j hj,
    evenOf_apply P (getD_lt (evenOf_wf ht) j), evenOf_getD P j hj,
    ← Function.iterate_add_apply]

/-- Two linear maps that agree on the 32 unit vectors agree on every 32-bit vector. -/
theorem linear_ext {f g : Nat → Nat} (hf : Linear f) (hg : Linear g)
    (h : ∀ j, j < 32 → f (2 ^ j) = g (2 ^ j)) {v : Nat} (hv : v < 2 ^ 32) : f v = g v := by
  have hm : ∀ j, j < 32 → ((List.range 32).map (fun j => f (2 ^ j))).getD j 0 = f (2 ^ j) := by
    intro j hj
    rw [List.getD_eq_getElem _ _ (by simpa using hj)]
    simp
  have e1 := xorRows_basis hf _ v 32 hm
  have e2 := xorRows_basis hg _ v 32 (fun j hj => (hm j hj).trans (h j hj))
  rw [Nat.mod_eq_of_lt hv] at e1 e2
  rw [← e1, ← e2]

theorem ieee_fix_basis :
    ∀ j, j < 32 →
      xorRows ieeeFixInv (zeroOpFn (makeTable IEEE) (2 ^ j) ^^^ 2 ^ j) 32 = 2 ^ j := by
  decide!

/-- Under the IEEE table the operator of one zero byte fixes no non-zero register. -/
theorem ieee_no_fixed_point {v : Nat} (hv : v < 2 ^ 32)
    (h : zeroOpFn (makeTable IEEE) v = v) : v = 0 := by
  have hlin : Linear (fun w => xorRows ieeeFixInv (zeroOpFn (makeTable IEEE) w ^^^ w) 32) := by
    intro a b
    simp only [zeroOpFn_linear (makeTable IEEE) a b]
    rw [xor_xor_xor_comm, xorRows_xor]
  have hid : Linear (fun w : Nat => w) := fun _ _ => rfl
  have := linear_ext hlin hid ieee_fix_basis hv
  simp only [h, Nat.xor_self, xorRows_zero] at this
  exact this.symm

theorem step_eq_zero {P : Nat} (hP : P.testBit 31 = true) {v : Nat} (hv : v < 2 ^ 32)
    (h : step P v = 0) : v = 0 := by
  have hodd : v % 2 = 0 := by
    by_contra hc
    have h1 : v % 2 = 1 := by omega
    have hs : step P v = (v >>> 1) ^^^ P := by simp [step, h1]
    have hb : (step P v).testBit 31 = true := by
      rw [hs, Nat.testBit_xor, Nat.testBit_shiftRight, hP,
        Nat.testBit_lt_two_pow (show v < 2 ^ (1 + 31) from hv)]
      rfl
    rw [h] at hb
    simp at hb
  have hs : step P v = v >>> 1 := by simp [step, hodd]
  rw [hs, Nat.shiftRight_eq_div_pow, pow_one] at h
  omega

theorem iterate_step_eq_zero {P : Nat} (hP : P < 2 ^ 32) (hb : P.testBit 31 = true) (k : Nat)
    {v : Nat} (hv : v < 2 ^ 32) (h : (step P)^[k] v = 0) : v = 0 := by
  induction k generalizing v with
  | zero => simpa using h
  | succ k ih =>
    rw [Function.iterate_succ_apply] at h
    exact step_eq_zero hb hv (ih (step_lt hP hv) h)

theorem zeroOpFn_iterate_lt {t : Table} (ht : TableWF t) (n : Nat) {v : Nat}
    (hv : v < 2 ^ 32) : (zeroOpFn t)^[n] v < 2 ^ 32 := by
  cases n with
  | zero => simpa using hv
  | succ n => rw [Function.iterate_succ_apply']; exact zeroOpFn_lt ht _

theorem ieee_iterate_ne {crc1 : Nat} (h1 : crc1 < 2 ^ 32) (h0 : crc1 ≠ 0) (n : Nat) :
    (zeroOpFn (makeTable IEEE))^[n] crc1 ≠ (zeroOpFn (makeTable IEEE))^[n + 1] crc1 := by
  have hP : IEEE < 2 ^ 32 := by decide
  have ht := makeTable_wf hP
  intro h
  rw [Function.iterate_succ_apply'] at h
  have hz := ieee_no_fixed_point (zeroOpFn_iterate_lt ht n h1) h.symm
  rw [zeroOpFn_iterate hP n h1, zeroByte_iterate] at hz
  exact h0 (iterate_step_eq_zero hP (by decide) _ h1 hz)

/-! ## The claims -/

/-- Claim C1: for each of the IEEE, Castagnoli and Koopman reflected polynomials
`P`, with the standard byte-wise table of `P` and the standard table-driven
CRC-32 under it, `Combine(table, crc(A), crc(B), len(B)) = crc(A ++ B)` for all
byte sequences `A` and `B`; `Combine` returns, and returns that value. -/
theorem Combine_correct (P : Nat) (hP : P = IEEE ∨ P = Castagnoli ∨ P = Koopman)
    (A B : List Nat) (_hA : Bytes A) (hB : Bytes B) :
    Combine (makeTable P) (checksum (makeTable P) A) (checksum (makeTable P) B) (B.length : Int)
      = some (checksum (makeTable P) (A ++ B)) := by
  have hlt : P < 2 ^ 32 := by
    rcases hP with rfl | rfl | rfl <;> decide
  exact Combine_checksum hlt A B hB

theorem Combine_correct_witness :
    (Castagnoli = IEEE ∨ Castagnoli = Castagnoli ∨ Castagnoli = Koopman) ∧
      Bytes [1, 2, 3] ∧ Bytes [4, 5] ∧
      Combine (makeTable Castagnoli) (checksum (makeTable Castagnoli) [1, 2, 3])
          (checksum (makeTable Castagnoli) [4, 5]) (([4, 5] : List Nat).length : Int)
        = some (checksum (makeTable Castagnoli) ([1, 2, 3] ++ [4, 5])) :=
  ⟨Or.inr (Or.inl rfl), by decide, by decide,
    Combine_correct Castagnoli (Or.inr (Or.inl rfl)) [1, 2, 3] [4, 5] (by decide) (by decide)⟩

/-- Claim C2: for every table, every `crc1`, every `crc2` and every
`length <= 0`, `Combine(table, crc1, crc2, length) = crc1`; the table and `crc2`
have no influence on the result. -/
theorem Combine_nonpositive (t : Table) (crc1 crc2 : Nat) (length : Int) (h : length ≤ 0) :
    Combine t crc1 crc2 length = some crc1 ∧
      ∀ (t' : Table) (crc2' : Nat),
        Combine t' crc1 crc2' length = Combine t crc1 crc2 length := by
  refine ⟨Combine_le_zero t crc1 crc2 h, fun t' crc2' => ?_⟩
  rw [Combine_le_zero t crc1 crc2 h, Combine_le_zero t' crc1 crc2' h]

theorem Combine_nonpositive_witness :
    (-3 : Int) ≤ 0 ∧
      (Combine (makeTable IEEE) 7 9 (-3) = some 7 ∧
        ∀ (t' : Table) (crc2' : Nat),
          Combine t' 7 crc2' (-3) = Combine (makeTable IEEE) 7 9 (-3)) :=
  ⟨by decide, Combine_nonpositive (makeTable IEEE) 7 9 (-3) (by decide)⟩

/-- Claim C3: for every table and every byte sequence `B` (the empty one
included), `crc("") = 0` and `Combine(table, crc(""), crc(B), len(B)) = crc(B)`;
more generally `Combine(table, 0, crc2, length) = crc2` for every table, every
`crc2` and every `length > 0`. -/
theorem Combine_empty_first (t : Table) (ht : TableWF t) :
    checksum t [] = 0 ∧
      (∀ B : List Nat,
        Combine t (checksum t []) (checksum t B) (B.length : Int) = some (checksum t B)) ∧
      ∀ (crc2 : Nat) (length : Int), 0 < length → Combine t 0 crc2 length = some crc2 := by
  have h3 : ∀ (crc2 : Nat) (length : Int), 0 < length → Combine t 0 crc2 length = some crc2 := by
    intro crc2 length hl
    rw [Combine_eq ht (by decide) crc2 hl, zeroOpFn_iterate_zero, Nat.zero_xor]
  refine ⟨checksum_nil t, ?_, h3⟩
  intro B
  rw [checksum_nil]
  cases B with
  | nil => rw [checksum_nil]; exact Combine_le_zero t 0 0 (by simp)
  | cons b B => exact h3 _ _ (by simp)

theorem Combine_empty_first_witness :
    TableWF (makeTable Koopman) ∧
      (checksum (makeTable Koopman) [] = 0 ∧
        (∀ B : List Nat,
          Combine (makeTable Koopman) (checksum (makeTable Koopman) [])
            (checksum (makeTable Koopman) B) (B.length : Int)
              = some (checksum (makeTable Koopman) B)) ∧
        ∀ (crc2 : Nat) (length : Int), 0 < length →
          Combine (makeTable Koopman) 0 crc2 length = some crc2) :=
  ⟨by decide!, Combine_empty_first (makeTable Koopman) (by decide!)⟩

/-- Claim C4: for the table of a reflected 32-bit polynomial and the standard
CRC-32 under it, for all byte sequences `A`, `B`, `C`: combining
`(A, B)` and then the result with `C` equals combining `A` with the combination
of `(B, C)` at length `len(B) + len(C)`, and both equal `crc(A ++ B ++ C)`. -/
theorem Combine_assoc (P : Nat) (hP : P < 2 ^ 32) (A B C : List Nat) (_hA : Bytes A)
    (hB : Bytes B) (hC : Bytes C) :
    ((Combine (makeTable P) (checksum (makeTable P) A) (checksum (makeTable P) B)
          (B.length : Int)).bind
        (fun ab => Combine (makeTable P) ab (checksum (makeTable P) C) (C.length : Int))
      = (Combine (makeTable P) (checksum (makeTable P) B) (checksum (makeTable P) C)
          (C.length : Int)).bind
        (fun bc => Combine (makeTable P) (checksum (makeTable P) A) bc
          ((B.length : Int) + (C.length : Int)))) ∧
      (Combine (makeTable P) (checksum (makeTable P) A) (checksum (makeTable P) B)
          (B.length : Int)).bind
        (fun ab => Combine (makeTable P) ab (checksum (makeTable P) C) (C.length : Int))
      = some (checksum (makeTable P) (A ++ B ++ C)) ∧
      (Combine (makeTable P) (checksum (makeTable P) B) (checksum (makeTable P) C)
          (C.length : Int)).bind
        (fun bc => Combine (makeTable P) (checksum (makeTable P) A) bc
          ((B.length : Int) + (C.length : Int)))
      = some (checksum (makeTable P) (A ++ B ++ C)) := by
  have hBC : Bytes (B ++ C) := by
    intro v hv
    rcases List.mem_append.mp hv with h | h
    · exact hB v h
    · exact hC v h
  have e1 : (Combine (makeTable P) (checksum (makeTable P) A) (checksum (makeTable P) B)
          (B.length : Int)).bind
        (fun ab => Combine (makeTable P) ab (checksum (makeTable P) C) (C.length : Int))
      = some (checksum (makeTable P) (A ++ B ++ C)) := by
    rw [Combine_checksum hP A B hB, Option.some_bind, Combine_checksum hP (A ++ B) C hC]
  have e2 : (Combine (makeTable P) (checksum (makeTable P) B) (checksum (makeTable P) C)
          (C.length : Int)).bind
        (fun bc => Combine (makeTable P) (checksum (makeTable P) A) bc
          ((B.length : Int) + (C.length : Int)))
      = some (checksum (makeTable P) (A ++ B ++ C)) := by
    have h := Combine_checksum hP A (B ++ C) hBC
    rw [List.length_append, Nat.cast_add, ← List.append_assoc] at h
    rw [Combine_checksum hP B C hC, Option.some_bind, h]
  exact ⟨e1.trans e2.symm, e1, e2⟩

theorem Combine_assoc_witness :
    IEEE < 2 ^ 32 ∧ Bytes [1, 2] ∧ Bytes [3] ∧ Bytes [4, 5, 6] ∧
      (((Combine (makeTable IEEE) (checksum (makeTable IEEE) [1, 2])
            (checksum (makeTable IEEE) [3]) (([3] : List Nat).length : Int)).bind
          (fun ab => Combine (makeTable IEEE) ab (checksum (makeTable IEEE) [4, 5, 6])
            (([4, 5, 6] : List Nat).length : Int))
        = (Combine (makeTable IEEE) (checksum (makeTable IEEE) [3])
            (checksum (makeTable IEEE) [4, 5, 6]) (([4, 5, 6] : List Nat).length : Int)).bind
          (fun bc => Combine (makeTable IEEE) (checksum (makeTable IEEE) [1, 2]) bc
            ((([3] : List Nat).length : Int) + (([4, 5, 6] : List Nat).length : Int)))) ∧
        (Combine (makeTable IEEE) (checksum (makeTable IEEE) [1, 2])
            (checksum (makeTable IEEE) [3]) (([3] : List Nat).length : Int)).bind
          (fun ab => Combine (makeTable IEEE) ab (checksum (makeTable IEEE) [4, 5, 6])
            (([4, 5, 6] : List Nat).length : Int))
        = some (checksum (makeTable IEEE) ([1, 2] ++ [3] ++ [4, 5, 6])) ∧
        (Combine (makeTable IEEE) (checksum (makeTable IEEE) [3])
            (checksum (makeTable IEEE) [4, 5, 6]) (([4, 5, 6] : List Nat).length : Int)).bind
          (fun bc => Combine (makeTable IEEE) (checksum (makeTable IEEE) [1, 2]) bc
            ((([3] : List Nat).length : Int) + (([4, 5, 6] : List Nat).length : Int)))
        = some (checksum (makeTable IEEE) ([1, 2] ++ [3] ++ [4, 5, 6]))) :=
  ⟨by decide, by decide, by decide, by decide,
    Combine_assoc IEEE (by decide) [1, 2] [3] [4, 5, 6] (by decide) (by decide) (by decide)⟩

/-- Claim C5: `Combine` is total: for every 256-entry table of `uint32`, every
`uint32` `crc1`, every `crc2` and every `length` it returns a value, so no row
index of `mul` or `sqrt` and no table index is out of range.  The same holds for
`mul` on every matrix and 32-bit `vec`, where eight iterations of the loop
suffice, and for `sqrt` on every source matrix. -/
theorem Combine_total (t : Table) (ht : TableWF t) (crc1 crc2 : Nat) (h1 : crc1 < 2 ^ 32)
    (length : Int) :
    (∃ r, Combine t crc1 crc2 length = some r) ∧
      (∀ (m : gf2Mat) (vec : Nat), MatWF m → vec < 2 ^ 32 →
        ∃ r, mul m vec = some r ∧ mulLoop 8 m 0 vec 0 = some r) ∧
      (∀ m lhs : gf2Mat, m.length = 32 → MatWF lhs → ∃ d, sqrt m lhs = some d) := by
  refine ⟨?_, ?_, ?_⟩
  · by_cases hl : length ≤ 0
    · exact ⟨crc1, Combine_le_zero t crc1 crc2 hl⟩
    · exact ⟨_, Combine_eq ht h1 crc2 (by omega)⟩
  · intro m vec hm hv
    exact ⟨_, mul_eq hm hv, mulLoop_eight hm hv⟩
  · intro m lhs hm hl
    exact ⟨_, sqrt_eq hl hm⟩

theorem Combine_total_witness :
    TableWF (makeTable IEEE) ∧ 0xdeadbeef < 2 ^ 32 ∧
      ((∃ r, Combine (makeTable IEEE) 0xdeadbeef 0xcafe 1000 = some r) ∧
        (∀ (m : gf2Mat) (vec : Nat), MatWF m → vec < 2 ^ 32 →
          ∃ r, mul m vec = some r ∧ mulLoop 8 m 0 vec 0 = some r) ∧
        (∀ m lhs : gf2Mat, m.length = 32 → MatWF lhs → ∃ d, sqrt m lhs = some d)) :=
  ⟨by decide!, by decide,
    Combine_total (makeTable IEEE) (by decide!) 0xdeadbeef 0xcafe (by decide) 1000⟩

/-- Claim C6 as stated fails: with the IEEE table, `A` empty and `n = 1`,
`Combine(table, crc(A), 0, n)` is `0`, not `crc(A ++ zeros(1))`, and
`crc(A ++ zeros(1)) XOR crc(B)` is not `crc(A ++ B)` for `B` the single zero byte. -/
theorem zero_pad_claim_fails :
    Combine (makeTable IEEE) (checksum (makeTable IEEE) []) 0 1
        ≠ some (checksum (makeTable IEEE) ([] ++ zeros 1)) ∧
      checksum (makeTable IEEE) ([] ++ zeros ([0] : List Nat).length)
          ^^^ checksum (makeTable IEEE) [0]
        ≠ checksum (makeTable IEEE) ([] ++ [0]) := by
  decide!

/-- Claim C6, amended: for the table of a reflected 32-bit polynomial, every byte
sequence `A` and every `n > 0`, the accumulator after the loop is the checksum of
`A` followed by `n` zero bytes XOR the checksum of `n` zero bytes:
`Combine(table, crc(A), 0, n) = crc(A ++ zeros(n)) XOR crc(zeros(n))`;
consequently, for all byte sequences `A` and `B`,
`crc(A ++ zeros(len(B))) XOR crc(zeros(len(B))) XOR crc(B) = crc(A ++ B)`. -/
theorem Combine_zero_pad (P : Nat) (hP : P < 2 ^ 32) (A : List Nat) (_hA : Bytes A) :
    (∀ n : Nat, 0 < n →
      Combine (makeTable P) (checksum (makeTable P) A) 0 (n : Int)
        = some (checksum (makeTable P) (A ++ zeros n) ^^^ checksum (makeTable P) (zeros n))) ∧
      ∀ B : List Nat, Bytes B →
        checksum (makeTable P) (A ++ zeros B.length) ^^^ checksum (makeTable P) (zeros B.length)
            ^^^ checksum (makeTable P) B
          = checksum (makeTable P) (A ++ B) := by
  have ht := makeTable_wf hP
  have hz : ∀ n, checksum (makeTable P) (A ++ zeros n) ^^^ checksum (makeTable P) (zeros n)
      = (zeroByte (makeTable P))^[n] (checksum (makeTable P) A) := by
    intro n
    rw [checksum_append P A (zeros n) (zeros_bytes n), zeros_length, Nat.xor_assoc, Nat.xor_self,
      Nat.xor_zero]
  constructor
  · intro n hn
    rw [Combine_eq_nat ht (checksum_lt ht A) 0 hn, zeroOpFn_iterate hP _ (checksum_lt ht A), hz,
      Nat.xor_zero]
  · intro B hB
    rw [hz, checksum_append P A B hB]

theorem Combine_zero_pad_witness :
    IEEE < 2 ^ 32 ∧ Bytes [1, 2, 3] ∧
      ((∀ n : Nat, 0 < n →
        Combine (makeTable IEEE) (checksum (makeTable IEEE) [1, 2, 3]) 0 (n : Int)
          = some (checksum (makeTable IEEE) ([1, 2, 3] ++ zeros n)
              ^^^ checksum (makeTable IEEE) (zeros n))) ∧
        ∀ B : List Nat, Bytes B →
          checksum (makeTable IEEE) ([1, 2, 3] ++ zeros B.length)
              ^^^ checksum (makeTable IEEE) (zeros B.length)
              ^^^ checksum (makeTable IEEE) B
            = checksum (makeTable IEEE) ([1, 2, 3] ++ B)) :=
  ⟨by decide, by decide, Combine_zero_pad IEEE (by decide) [1, 2, 3] (by decide)⟩

/-- Claim C7: for every table, `crc1`, `crc2` and length `n > 0`, the `n`-fold
application of `Z(v) = sqrt(odd).mul(v)` to `crc1` returns a value `r`, and
`Combine(table, crc1, crc2, n) = r XOR crc2`: the ping-pong square-and-multiply
loop equals the naive `n`-fold application. -/
theorem Combine_eq_iterate (t : Table) (ht : TableWF t) (crc1 crc2 : Nat) (h1 : crc1 < 2 ^ 32)
    (n : Nat) (hn : 0 < n) :
    ∃ r, iterOpt (zeroOp t) n crc1 = some r ∧
      Combine t crc1 crc2 (n : Int) = some (r ^^^ crc2) :=
  ⟨_, iterOpt_zeroOp ht n h1, Combine_eq_nat ht h1 crc2 hn⟩

theorem Combine_eq_iterate_witness :
    TableWF (makeTable Castagnoli) ∧ 0x12345678 < 2 ^ 32 ∧ 0 < 5 ∧
      ∃ r, iterOpt (zeroOp (makeTable Castagnoli)) 5 0x12345678 = some r ∧
        Combine (makeTable Castagnoli) 0x12345678 0xffff ((5 : Nat) : Int)
          = some (r ^^^ 0xffff) :=
  ⟨by decide!, by decide, by decide,
    Combine_eq_iterate (makeTable Castagnoli) (by decide!) 0x12345678 0xffff (by decide) 5
      (by decide)⟩

/-- Claim C8: for the table built by the standard reflected construction from a
32-bit polynomial `P`, the first squaring of the seeded `odd` is the operator of
one zero byte, `sqrt(odd).mul(v) = table[v AND 0xff] XOR (v >> 8)` for every
32-bit `v`, and the `k`-th squaring of the loop (`k >= 1`) is the operator of
`2^(k-1)` zero bytes. -/
theorem squaring_zero_bytes (P : Nat) (hP : P < 2 ^ 32) :
    (∀ v, v < 2 ^ 32 → zeroOp (makeTable P) v = some (zeroByte (makeTable P) v)) ∧
      ∀ k, 1 ≤ k → ∃ M, kthSquare (makeTable P) k = some M ∧
        ∀ v, v < 2 ^ 32 → mul M v = some ((zeroByte (makeTable P))^[2 ^ (k - 1)] v) := by
  have ht := makeTable_wf hP
  constructor
  · intro v hv
    rw [zeroOp_eq ht hv, zeroOpFn_makeTable hP hv]
  · intro k hk
    obtain ⟨X, hX⟩ := buffersAfter_eq k (oddOf (makeTable P)) (evenOf (makeTable P))
      (oddOf_wf ht) (evenOf_length _)
    refine ⟨sqMat^[k] (oddOf (makeTable P)), ?_, ?_⟩
    · rw [kthSquare, seedOdd_eq ht.1, seedEven_eq ht.1]
      simp only []
      rw [hX]; rfl
    · intro v hv
      rw [mul_eq (sqMat_iterate_wf (oddOf_wf ht) k) hv, sqMat_iterate_apply P hP k v hv,
        zeroByte_iterate]
      obtain ⟨j, rfl⟩ : ∃ j, k = j + 1 := ⟨k - 1, by omega⟩
      rw [Nat.add_sub_cancel, pow_succ]
      congr 2
      ring

theorem squaring_zero_bytes_witness :
    Koopman < 2 ^ 32 ∧
      ((∀ v, v < 2 ^ 32 → zeroOp (makeTable Koopman) v = some (zeroByte (makeTable Koopman) v)) ∧
        ∀ k, 1 ≤ k → ∃ M, kthSquare (makeTable Koopman) k = some M ∧
          ∀ v, v < 2 ^ 32 →
            mul M v = some ((zeroByte (makeTable Koopman))^[2 ^ (k - 1)] v)) :=
  ⟨by decide, squaring_zero_bytes Koopman (by decide)⟩

/-- Claim C9: for every matrix `m` and every 32-bit `vec`, `m.mul(vec)` returns
the XOR of the rows `m[j]` over exactly the bit positions `j` in `0..31` set in
`vec`: the four-rows-at-a-time loop with early exit computes the plain fold over
all 32 bit positions. -/
theorem mul_eq_mulSpec (m : gf2Mat) (hm : MatWF m) (vec : Nat) (hv : vec < 2 ^ 32) :
    mul m vec = some (mulSpec m vec) := by
  rw [mul_eq hm hv, mulSpec_eq]

theorem mul_eq_mulSpec_witness :
    MatWF initEven ∧ 0xa5a5a5a5 < 2 ^ 32 ∧
      mul initEven 0xa5a5a5a5 = some (mulSpec initEven 0xa5a5a5a5) :=
  ⟨by decide, by decide, mul_eq_mulSpec initEven (by decide) 0xa5a5a5a5 (by decide)⟩

/-- Claim C10: for every source matrix `S` and every destination buffer,
`D.sqrt(S)` returns a matrix `D` with `D[n] = S.mul(S[n])` for every row `n`, and
`D.mul(v) = S.mul(S.mul(v))` for every 32-bit `v`: the squared matrix applies
`S` twice. -/
theorem sqrt_applies_twice (S D0 : gf2Mat) (hS : MatWF S) (hD : D0.length = 32) :
    ∃ D, sqrt D0 S = some D ∧ D.length = 32 ∧
      (∀ n, n < 32 → mul S (S.getD n 0) = some (D.getD n 0)) ∧
      ∀ v, v < 2 ^ 32 → mul D v = (mul S v).bind (mul S) := by
  refine ⟨sqMat S, sqrt_eq hS hD, (sqMat_wf hS).1, ?_, ?_⟩
  · intro n _
    rw [mul_eq hS (getD_lt hS n), sqMat, getD_map_linear (linear_xorRows S 32)]
  · intro v hv
    rw [mul_eq (sqMat_wf hS) hv, mul_eq hS hv, Option.some_bind, mul_eq hS (xorRows_lt hS _ _),
      xorRows_sqMat]

theorem sqrt_applies_twice_witness :
    MatWF initOdd ∧ initEven.length = 32 ∧
      ∃ D, sqrt initEven initOdd = some D ∧ D.length = 32 ∧
        (∀ n, n < 32 → mul initOdd (initOdd.getD n 0) = some (D.getD n 0)) ∧
        ∀ v, v < 2 ^ 32 → mul D v = (mul initOdd v).bind (mul initOdd) :=
  ⟨by decide, by decide, sqrt_applies_twice initOdd initEven (by decide) (by decide)⟩

/-- Claim C11: every matrix is a linear operator over GF(2) under `mul`: for
every matrix `m` and all 32-bit `a`, `b`, `m.mul(a)` and `m.mul(b)` return values
`x` and `y` and `m.mul(a XOR b) = x XOR y`; and `m.mul(0) = 0`. -/
theorem mul_linear (m : gf2Mat) (hm : MatWF m) (a b : Nat) (ha : a < 2 ^ 32)
    (hb : b < 2 ^ 32) :
    (∃ x y, mul m a = some x ∧ mul m b = some y ∧ mul m (a ^^^ b) = some (x ^^^ y)) ∧
      mul m 0 = some 0 := by
  refine ⟨⟨_, _, mul_eq hm ha, mul_eq hm hb, ?_⟩, mul_zero_vec m⟩
  rw [mul_eq hm (Nat.xor_lt_two_pow ha hb), xorRows_xor]

theorem mul_linear_witness :
    MatWF initOdd ∧ 0xf0f0 < 2 ^ 32 ∧ 0x1234567 < 2 ^ 32 ∧
      ((∃ x y, mul initOdd 0xf0f0 = some x ∧ mul initOdd 0x1234567 = some y ∧
          mul initOdd (0xf0f0 ^^^ 0x1234567) = some (x ^^^ y)) ∧
        mul initOdd 0 = some 0) :=
  ⟨by decide, by decide, by decide,
    mul_linear initOdd (by decide) 0xf0f0 0x1234567 (by decide) (by decide)⟩

/-- Claim C12: `Combine` depends on the table only through its entries at
indices 16, 32, 64 and 128: for all tables `t`, `t'` that agree on these four
indices and all `crc1`, `crc2`, `length`,
`Combine(t, crc1, crc2, length) = Combine(t', crc1, crc2, length)`. -/
theorem Combine_table_entries (t t' : Table) (h16 : t[16]? = t'[16]?)
    (h32 : t[32]? = t'[32]?) (h64 : t[64]? = t'[64]?) (h128 : t[128]? = t'[128]?)
    (crc1 crc2 : Nat) (length : Int) :
    Combine t crc1 crc2 length = Combine t' crc1 crc2 length := by
  apply Combine_congr_seed
  · simp only [seedOdd, show (1 : Nat) <<< 4 = 16 from rfl, show (1 : Nat) <<< 5 = 32 from rfl,
      show (1 : Nat) <<< 6 = 64 from rfl, show (1 : Nat) <<< 7 = 128 from rfl, h16, h32, h64,
      h128]
  · simp only [seedEven, show (1 : Nat) <<< 6 = 64 from rfl,
      show (1 : Nat) <<< 7 = 128 from rfl, h64, h128]

theorem Combine_table_entries_witness :
    (makeTable IEEE)[16]? = ((makeTable IEEE).set 17 0)[16]? ∧
      (makeTable IEEE)[32]? = ((makeTable IEEE).set 17 0)[32]? ∧
      (makeTable IEEE)[64]? = ((makeTable IEEE).set 17 0)[64]? ∧
      (makeTable IEEE)[128]? = ((makeTable IEEE).set 17 0)[128]? ∧
      Combine (makeTable IEEE) 0xabcdef 0x123 1000
        = Combine ((makeTable IEEE).set 17 0) 0xabcdef 0x123 1000 :=
  ⟨by decide!, by decide!, by decide!, by decide!,
    Combine_table_entries (makeTable IEEE) ((makeTable IEEE).set 17 0) (by decide!) (by decide!)
      (by decide!) (by decide!) 0xabcdef 0x123 1000⟩

/-- Claim C13: for every `length > 0` the loop of `Combine` terminates: the
remaining length halves, hence strictly decreases, at every iteration, and the
loop returns within `fuel` iterations exactly when
`floor(log2(length)) + 1 <= fuel`, whatever the table and `crc1`: it performs
one squaring for each binary digit of `length`. -/
theorem loop_iterations (t : Table) (ht : TableWF t) (crc1 : Nat) (h1 : crc1 < 2 ^ 32)
    (n : Nat) (hn : 0 < n) :
    (n >>> 1 < n ∧ n >>> 1 = n / 2) ∧
      ∃ odd even, seedOdd t = some odd ∧ seedEven t = some even ∧
        (∃ r, combineLoop n odd even n crc1 = some r) ∧
        ∀ fuel, (∃ r, combineLoop fuel odd even n crc1 = some r) ↔ Nat.log2 n + 1 ≤ fuel := by
  have hdiv : n >>> 1 = n / 2 := by rw [Nat.shiftRight_eq_div_pow, pow_one]
  refine ⟨⟨by omega, hdiv⟩, oddOf t, evenOf t, seedOdd_eq ht.1, seedEven_eq ht.1, ?_, ?_⟩
  · exact ⟨_, combineLoop_eq n n _ _ crc1 (oddOf_wf ht) (evenOf_length t) h1 (Nat.lt_two_pow n)⟩
  · intro fuel
    constructor
    · rintro ⟨r, hr⟩
      by_contra hlt
      have h2 : 2 ^ fuel ≤ n := (Nat.le_log2 (by omega)).1 (by omega)
      rw [combineLoop_none fuel n _ _ crc1 (oddOf_wf ht) (evenOf_length t) h1 h2] at hr
      exact Option.noConfusion hr
    · intro hle
      have h2 : n < 2 ^ fuel := (Nat.log2_lt (by omega)).1 (by omega)
      exact ⟨_, combineLoop_eq fuel n _ _ crc1 (oddOf_wf ht) (evenOf_length t) h1 h2⟩

theorem loop_iterations_witness :
    TableWF (makeTable IEEE) ∧ 0xffffffff < 2 ^ 32 ∧ 0 < 6 ∧
      ((6 >>> 1 < 6 ∧ 6 >>> 1 = 6 / 2) ∧
        ∃ odd even, seedOdd (makeTable IEEE) = some odd ∧ seedEven (makeTable IEEE) = some even ∧
          (∃ r, combineLoop 6 odd even 6 0xffffffff = some r) ∧
          ∀ fuel, (∃ r, combineLoop fuel odd even 6 0xffffffff = some r)
            ↔ Nat.log2 6 + 1 ≤ fuel) :=
  ⟨by decide!, by decide, by decide,
    loop_iterations (makeTable IEEE) (by decide!) 0xffffffff (by decide) 6 (by decide)⟩

/-- Claim C14: length sensitivity for the IEEE table: for every `crc1 != 0`,
every `crc2` and every length `n >= 1`,
`Combine(tableIEEE, crc1, crc2, n) != Combine(tableIEEE, crc1, crc2, n + 1)`, and
both calls return a value. -/
theorem Combine_length_sensitive (crc1 crc2 : Nat) (h1 : crc1 < 2 ^ 32) (h0 : crc1 ≠ 0)
    (n : Nat) (hn : 1 ≤ n) :
    ∃ x y, Combine (makeTable IEEE) crc1 crc2 (n : Int) = some x ∧
      Combine (makeTable IEEE) crc1 crc2 ((n : Int) + 1) = some y ∧ x ≠ y := by
  have ht := makeTable_wf (show IEEE < 2 ^ 32 by decide)
  have e := Combine_eq_nat ht h1 crc2 (show 0 < n + 1 by omega)
  rw [Nat.cast_add, Nat.cast_one] at e
  refine ⟨_, _, Combine_eq_nat ht h1 crc2 (show 0 < n by omega), e, ?_⟩
  intro h
  exact ieee_iterate_ne h1 h0 n (Nat.xor_left_inj.mp h)

theorem Combine_length_sensitive_witness :
    0xcbf43926 < 2 ^ 32 ∧ 0xcbf43926 ≠ 0 ∧ 1 ≤ 9 ∧
      ∃ x y, Combine (makeTable IEEE) 0xcbf43926 0x1234 ((9 : Nat) : Int) = some x ∧
        Combine (makeTable IEEE) 0xcbf43926 0x1234 (((9 : Nat) : Int) + 1) = some y ∧ x ≠ y :=
  ⟨by decide, by decide, by decide,
    Combine_length_sensitive 0xcbf43926 0x1234 (by decide) (by decide) 9 (by decide)⟩

/-- Claim C15: `Combine` is GF(2)-linear in the pair `(crc1, crc2)` for a fixed
table and length: for every table, every `length` (positive, zero or negative)
and all `a`, `b`, `c`, `d`, `Combine(table, a, c, length)` and
`Combine(table, b, d, length)` return values `x` and `y`, and
`Combine(table, a XOR b, c XOR d, length) = x XOR y`. -/
theorem Combine_linear (t : Table) (ht : TableWF t) (length : Int) (a b c d : Nat)
    (ha : a < 2 ^ 32) (hb : b < 2 ^ 32) :
    ∃ x y, Combine t a c length = some x ∧ Combine t b d length = some y ∧
      Combine t (a ^^^ b) (c ^^^ d) length = some (x ^^^ y) := by
  by_cases hl : length ≤ 0
  · exact ⟨a, b, Combine_le_zero t a c hl, Combine_le_zero t b d hl,
      Combine_le_zero t (a ^^^ b) (c ^^^ d) hl⟩
  · have hpos : 0 < length := by omega
    refine ⟨_, _, Combine_eq ht ha c hpos, Combine_eq ht hb d hpos, ?_⟩
    rw [Combine_eq ht (Nat.xor_lt_two_pow ha hb) (c ^^^ d) hpos,
      linear_iterate (zeroOpFn_linear t) length.toNat a b, xor_xor_xor_comm]

theorem Combine_linear_witness :
    TableWF (makeTable Koopman) ∧ 0x1111 < 2 ^ 32 ∧ 0x2222 < 2 ^ 32 ∧
      ∃ x y, Combine (makeTable Koopman) 0x1111 0x3333 77 = some x ∧
        Combine (makeTable Koopman) 0x2222 0x4444 77 = some y ∧
        Combine (makeTable Koopman) (0x1111 ^^^ 0x2222) (0x3333 ^^^ 0x4444) 77
          = some (x ^^^ y) :=
  ⟨by decide!, by decide, by decide,
    Combine_linear (makeTable Koopman) (by decide!) 77 0x1111 0x2222 0x3333 0x4444 (by decide)
      (by decide)⟩

/-- Claim C16: the initial contents of the `even` buffer never influence the
result: from the seeded `odd`, the first squaring gives the same matrix into any
two initial `even` buffers, the loop of `Combine` gives the same value from both
for every `crc1` and length, and `Combine` returns the value of the loop run
from any initial `even`, XOR `crc2`. -/
theorem even_irrelevant (t : Table) (ht : TableWF t) (e1 e2 : gf2Mat) (h1 : e1.length = 32)
    (h2 : e2.length = 32) :
    ∃ odd, seedOdd t = some odd ∧ sqrt e1 odd = sqrt e2 odd ∧
      (∀ fuel n crc1, crc1 < 2 ^ 32 →
        combineLoop fuel odd e1 n crc1 = combineLoop fuel odd e2 n crc1) ∧
      ∀ (crc1 crc2 : Nat) (length : Int), crc1 < 2 ^ 32 → 0 < length →
        Combine t crc1 crc2 length
          = (combineLoop length.toNat odd e1 length.toNat crc1).map (fun r => r ^^^ crc2) := by
  have ho := oddOf_wf ht
  refine ⟨oddOf t, seedOdd_eq ht.1, ?_, ?_, ?_⟩
  · rw [sqrt_eq ho h1, sqrt_eq ho h2]
  · intro fuel n crc1 hc
    exact combineLoop_even_irrelevant fuel n _ e1 e2 crc1 ho h1 h2 hc
  · intro crc1 crc2 length hc hl
    rw [Combine_eq ht hc crc2 hl,
      combineLoop_eq _ _ _ e1 crc1 ho h1 hc (Nat.lt_two_pow _)]
    rfl

theorem even_irrelevant_witness :
    TableWF (makeTable IEEE) ∧ initEven.length = 32 ∧ (List.replicate 32 7).length = 32 ∧
      ∃ odd, seedOdd (makeTable IEEE) = some odd ∧
        sqrt initEven odd = sqrt (List.replicate 32 7) odd ∧
        (∀ fuel n crc1, crc1 < 2 ^ 32 →
          combineLoop fuel odd initEven n crc1
            = combineLoop fuel odd (List.replicate 32 7) n crc1) ∧
        ∀ (crc1 crc2 : Nat) (length : Int), crc1 < 2 ^ 32 → 0 < length →
          Combine (makeTable IEEE) crc1 crc2 length
            = (combineLoop length.toNat odd initEven length.toNat crc1).map
                (fun r => r ^^^ crc2) :=
  ⟨by decide!, by decide, by decide,
    even_irrelevant (makeTable IEEE) (by decide!) initEven (List.replicate 32 7) (by decide)
      (by decide)⟩

/-- Claim C17: for the table built by the standard reflected construction from a
32-bit polynomial `P`, with `step(v) = (v >> 1) XOR (P if bit 0 of v is set)`,
the seeded `odd` is the operator of four zero bits and the seeded `even` the
operator of two zero bits: `odd.mul(v) = step^4(v)` and `even.mul(v) = step^2(v)`
for every 32-bit `v`, and squaring the seeded `even` gives the seeded `odd`. -/
theorem seeded_operators (P : Nat) (hP : P < 2 ^ 32) :
    ∃ odd even, seedOdd (makeTable P) = some odd ∧ seedEven (makeTable P) = some even ∧
      (∀ v, v < 2 ^ 32 →
        mul odd v = some ((step P)^[4] v) ∧ mul even v = some ((step P)^[2] v)) ∧
      ∀ D0 : gf2Mat, D0.length = 32 → sqrt D0 even = some odd := by
  have ht := makeTable_wf hP
  refine ⟨_, _, seedOdd_eq ht.1, seedEven_eq ht.1, ?_, ?_⟩
  · intro v hv
    rw [mul_eq (oddOf_wf ht) hv, mul_eq (evenOf_wf ht) hv, oddOf_apply P hv, evenOf_apply P hv]
    exact ⟨rfl, rfl⟩
  · intro D0 hD
    rw [sqrt_eq (evenOf_wf ht) hD, sqMat_evenOf P hP]

theorem seeded_operators_witness :
    Castagnoli < 2 ^ 32 ∧
      ∃ odd even, seedOdd (makeTable Castagnoli) = some odd ∧
        seedEven (makeTable Castagnoli) = some even ∧
        (∀ v, v < 2 ^ 32 →
          mul odd v = some ((step Castagnoli)^[4] v) ∧
            mul even v = some ((step Castagnoli)^[2] v)) ∧
        ∀ D0 : gf2Mat, D0.length = 32 → sqrt D0 even = some odd :=
  ⟨by decide, seeded_operators Castagnoli (by decide)⟩

end Crc32Combine
